import Mathlib

set_option maxHeartbeats 1000000
set_option linter.unusedVariables false
set_option linter.unusedTactic false

/-
Shallow embedding of the wadofstuff Django full serializer:
  wadofstuff/django/serializers/base.py   (orchestrating serialize loop)
  wadofstuff/django/serializers/python.py (field handlers and record building)
Model instances are finite trees (an attribute can hold a related instance,
a manager holding a list of instances, a plain value, or a callable), so the
recursive relation expansion of the source terminates structurally here.
-/

namespace Wos

/-- Python runtime values appearing in serialized output: None, booleans,
integers, strings, lists and dicts (assoc lists in insertion order). -/
inductive PyVal where
  | none_ : PyVal
  | bool : Bool → PyVal
  | int : Int → PyVal
  | str : String → PyVal
  | list : List PyVal → PyVal
  | dict : List (String × PyVal) → PyVal

/-- Python str() on embedded values: the canonical string form. -/
def pyStr : PyVal → String
  | .none_ => "None"
  | .bool b => if b then "True" else "False"
  | .int n => toString n
  | .str s => s
  | .list _ => "<list>"
  | .dict _ => "<dict>"

/-- django.utils.encoding.is_protected_type: primitive values (None,
booleans, numbers) that smart_str(strings_only=True) and handle_field
pass through without string conversion. -/
def isProtected : PyVal → Bool
  | .none_ => true
  | .bool _ => true
  | .int _ => true
  | _ => false

/-- django.utils.encoding.smart_str with strings_only=True: protected
values are returned unchanged, everything else becomes its string form. -/
def smart_str (v : PyVal) : PyVal :=
  if isProtected v then v else .str (pyStr v)

/-- Python dict assignment d[k] = v on an insertion-ordered assoc list:
overwrite in place when the key exists, append otherwise. -/
def dinsert (k : String) (v : PyVal) : List (String × PyVal) → List (String × PyVal)
  | [] => [(k, v)]
  | (k1, v1) :: rest => if k1 == k then (k, v) :: rest else (k1, v1) :: dinsert k v rest

/-- Python attname[:-3]: the string with its last three characters dropped
(empty result when the string is shorter). -/
def pyDropLast3 (s : String) : String :=
  String.mk s.data.dropLast.dropLast.dropLast

mutual
/-- Parsed serializer options, the values base.py serialize pops:
fields, excludes, relations, extras, use_natural_keys. -/
inductive Options where
  | mk : List String → List String → Relations → List String → Bool → Options

/-- The relations option: either a plain list of relation names or a dict
mapping relation names to per-relation entries. -/
inductive Relations where
  | names : List String → Relations
  | dict : List (String × RelEntry) → Relations

/-- A value of the dict form of relations: a nested options dict, or any
non-dict value (which handlers ignore, falling back to empty options). -/
inductive RelEntry where
  | opts : Options → RelEntry
  | other : RelEntry
end

def Options.fields : Options → List String | .mk f _ _ _ _ => f
def Options.excludes : Options → List String | .mk _ e _ _ _ => e
def Options.relations : Options → Relations | .mk _ _ r _ _ => r
def Options.extras : Options → List String | .mk _ _ _ x _ => x
def Options.use_natural_keys : Options → Bool | .mk _ _ _ _ u => u

/-- Options with every recognized key absent: the pop defaults of
base.py serialize (and the nested default of the relation handlers). -/
def defaultOptions : Options := .mk [] [] (.names []) [] false

/-- Python fname in self.relations: list membership, or dict key test. -/
def Relations.mem : Relations → String → Bool
  | .names l, n => l.contains n
  | .dict l, n => (l.lookup n).isSome

/-- Nested options for an expanded relation: self.relations[fname] when
the relations option is a dict and that entry is itself a dict, else the
empty options dict. -/
def Relations.nestedOpts : Relations → String → Options
  | .names _, _ => defaultOptions
  | .dict l, n =>
    match l.lookup n with
    | some (.opts o) => o
    | _ => defaultOptions

/-- The nested include test of base.py serialize: the name is not in
excludes, and the fields allow-list is empty or holds the name. -/
def passFilter (opts : Options) (n : String) : Bool :=
  !(opts.excludes.contains n) && (opts.fields.isEmpty || opts.fields.contains n)

/-- field.rel of a forward ForeignKey: the remote field name referenced. -/
structure FkRel where
  field_name : String
deriving DecidableEq

/-- A local (direct or ForeignKey) Django field as seen on an instance;
value carries field._get_val_from_obj(obj) for direct fields. -/
structure FieldD where
  name : String
  attname : String
  serialize : Bool
  rel : Option FkRel
  value : PyVal

/-- The storage attname with its last three characters stripped: the name
base.py tests against fields/excludes for ForeignKey fields. -/
def fkTestName (f : FieldD) : String := pyDropLast3 f.attname

/-- field.rel.field_name (dispatch guarantees rel is present; the empty
string stands for the unreachable direct-field case). -/
def relFieldName (f : FieldD) : String :=
  match f.rel with
  | some r => r.field_name
  | none => ""

/-- A ManyToManyField descriptor: whether field.rel.through._meta is
auto_created and whether the target class hasattr natural_key. -/
structure M2MFieldD where
  name : String
  attname : String
  serialize : Bool
  throughAutoCreated : Bool
  toHasNaturalKey : Bool

mutual
/-- A persisted model instance: model label, pk value, pk field name,
optional natural_key result, declared local and m2m fields, reverse fk and
reverse m2m accessor names, and the attribute dict getattr reads from. -/
inductive Obj where
  | mk : String → PyVal → String → Option PyVal → List FieldD → List M2MFieldD →
      List String → List String → List (String × Attr) → Obj

/-- An attribute value reachable through getattr on an instance: a related
instance, a manager over related instances, a plain value (None is
Attr.val PyVal.none_), or a zero-argument callable with its result. -/
inductive Attr where
  | obj : Obj → Attr
  | manager : List Obj → Attr
  | val : PyVal → Attr
  | callable : PyVal → Attr
end

def Obj.model : Obj → String | .mk m _ _ _ _ _ _ _ _ => m
def Obj.pk : Obj → PyVal | .mk _ p _ _ _ _ _ _ _ => p
def Obj.pkName : Obj → String | .mk _ _ n _ _ _ _ _ _ => n
def Obj.naturalKey : Obj → Option PyVal | .mk _ _ _ k _ _ _ _ _ => k
def Obj.local_fields : Obj → List FieldD | .mk _ _ _ _ fs _ _ _ _ => fs
def Obj.many_to_many : Obj → List M2MFieldD | .mk _ _ _ _ _ ms _ _ _ => ms
def Obj.reverseFk : Obj → List String | .mk _ _ _ _ _ _ r _ _ => r
def Obj.reverseM2m : Obj → List String | .mk _ _ _ _ _ _ _ r _ => r
def Obj.attrs : Obj → List (String × Attr) | .mk _ _ _ _ _ _ _ _ a => a

/-- Python getattr(obj, name); none models a missing attribute (an
AttributeError raised by the data layer, outside this core). -/
def getattr (o : Obj) (n : String) : Option Attr := o.attrs.lookup n

/-- Python view of a non-callable attribute value as a plain value (model
instances and managers only ever meet str()). -/
def attrAsVal : Attr → PyVal
  | .obj o => .str (o.model ++ " object")
  | .manager _ => .str "<manager>"
  | .val v => v
  | .callable _ => .str "<callable>"

/-- getattr then plain-value view, a missing attribute defaulting to None. -/
def getattrVal (o : Obj) (n : String) : PyVal :=
  match getattr o n with
  | some a => attrAsVal a
  | none => .none_

/-- python.py handle_field: protected values stored as is, other values
through field.value_to_string (string conversion of the value). -/
def handle_field (f : FieldD) (acc : List (String × PyVal)) : List (String × PyVal) :=
  if isProtected f.value then dinsert f.name f.value acc
  else dinsert f.name (.str (pyStr f.value)) acc

/-- python.py handle_extra_field: an attribute or zero-argument callable
converted by smart_str(strings_only=True); missing names are skipped. -/
def handle_extra_field (o : Obj) (extra : String) (ex : List (String × PyVal)) :
    List (String × PyVal) :=
  match getattr o extra with
  | some (.callable ret) => dinsert extra (smart_str ret) ex
  | some a => dinsert extra (smart_str (attrAsVal a)) ex
  | none => ex

/-- The extras loop of base.py serialize, feeding handle_extra_field. -/
def processExtras (o : Obj) : List String → List (String × PyVal) → List (String × PyVal)
  | [], ex => ex
  | e :: es, ex => processExtras o es (handle_extra_field o e ex)

theorem sizeOf_lookup_le {l : List (String × Attr)} {k : String} {a : Attr}
    (h : l.lookup k = some a) : sizeOf a + 2 ≤ sizeOf l := by
  induction l with
  | nil => simp [List.lookup] at h
  | cons p rest ih =>
    obtain ⟨k1, a1⟩ := p
    rw [List.lookup] at h
    split at h
    · cases h
      simp only [List.cons.sizeOf_spec, Prod.mk.sizeOf_spec]
      omega
    · have := ih h
      simp only [List.cons.sizeOf_spec, Prod.mk.sizeOf_spec]
      omega

theorem sizeOf_attrs_lt (o : Obj) : sizeOf o.attrs < sizeOf o := by
  cases o with
  | mk m p pn nk lf mm rf rm a =>
    simp only [Obj.attrs, Obj.mk.sizeOf_spec]
    omega

theorem getattr_sizeOf {o : Obj} {n : String} {a : Attr} (h : getattr o n = some a) :
    sizeOf a + 3 ≤ sizeOf o := by
  have h1 := sizeOf_lookup_le h
  have h2 := sizeOf_attrs_lt o
  omega

theorem getattr_obj_sizeOf {o : Obj} {n : String} {r : Obj}
    (h : getattr o n = some (Attr.obj r)) : sizeOf r + 4 ≤ sizeOf o := by
  have h1 := getattr_sizeOf h
  have h2 : sizeOf (Attr.obj r) = 1 + sizeOf r := by simp
  omega

theorem getattr_manager_sizeOf {o : Obj} {n : String} {os : List Obj}
    (h : getattr o n = some (Attr.manager os)) : sizeOf os + 4 ≤ sizeOf o := by
  have h1 := getattr_sizeOf h
  have h2 : sizeOf (Attr.manager os) = 1 + sizeOf os := by simp
  omega

mutual

/-- base.py serialize: iterate the queryset, per object running the field
loops and hooks, returning getvalue() (the accumulated record list). -/
def serialize : List Obj → Options → List PyVal
  | [], _ => []
  | o :: os, opts => serializeObj o opts :: serialize os opts
termination_by objs opts => (sizeOf objs, 4, 0)
decreasing_by
  all_goals
    ((try simp_wf); apply Prod.Lex.left; (try simp only [List.cons.sizeOf_spec]); omega)

/-- One object's record: the per-object body of base.py serialize combined
with python.py start_object and end_object (extras key only if nonempty). -/
def serializeObj (o : Obj) (opts : Options) : PyVal :=
  let fs1 := processLocal o opts o.local_fields []
  let fs2 := processM2M o opts o.many_to_many fs1
  let fs3 := processRevFk o opts o.reverseFk fs2
  let fs4 := processRevM2m o opts o.reverseM2m fs3
  let ex := processExtras o opts.extras []
  .dict ([("model", .str o.model), ("pk", smart_str o.pk), ("fields", .dict fs4)] ++
    (if ex.isEmpty then [] else [("extras", .dict ex)]))
termination_by (sizeOf o, 3, 0)
decreasing_by
  all_goals
    ((try simp_wf); apply Prod.Lex.right; apply Prod.Lex.left; omega)

/-- The local-fields loop of base.py serialize. -/
def processLocal (o : Obj) (opts : Options) :
    List FieldD → List (String × PyVal) → List (String × PyVal)
  | [], acc => acc
  | f :: fs, acc => processLocal o opts fs (localStep o opts f acc)
termination_by fs acc => (sizeOf o, 2, sizeOf fs)
decreasing_by
  all_goals
    first
    | ((try simp_wf); apply Prod.Lex.right; apply Prod.Lex.left; omega)
    | ((try simp_wf); apply Prod.Lex.right; apply Prod.Lex.right;
       (try simp only [List.cons.sizeOf_spec]); omega)

/-- Dispatch for one local field in base.py serialize: the serialize flag,
the direct/fk branch on field.rel, and the excludes/fields filter on
attname (direct) or attname[:-3] (ForeignKey). -/
def localStep (o : Obj) (opts : Options) (f : FieldD) (acc : List (String × PyVal)) :
    List (String × PyVal) :=
  if f.serialize then
    match f.rel with
    | none => if passFilter opts f.attname then handle_field f acc else acc
    | some _ => if passFilter opts (fkTestName f) then handle_fk_field o f opts acc else acc
  else acc
termination_by (sizeOf o, 1, 0)
decreasing_by
  (try simp_wf); apply Prod.Lex.right; apply Prod.Lex.left; omega

/-- python.py handle_fk_field: expand when the field name is in relations
(serializer.serialize([related], **options)[0]); otherwise fall back to a
natural key, the raw pk value when the relation targets the remote pk, or
smart_str of the referenced remote field; None is stored via smart_str. -/
def handle_fk_field (o : Obj) (f : FieldD) (opts : Options) (acc : List (String × PyVal)) :
    List (String × PyVal) :=
  match hg : getattr o f.name with
  | some (Attr.obj r) =>
    if Relations.mem opts.relations f.name then
      dinsert f.name
        ((serialize [r] (Relations.nestedOpts opts.relations f.name)).headD PyVal.none_) acc
    else
      if opts.use_natural_keys && r.naturalKey.isSome then
        dinsert f.name (r.naturalKey.getD PyVal.none_) acc
      else if relFieldName f == r.pkName then
        dinsert f.name r.pk acc
      else
        dinsert f.name (smart_str (getattrVal r (relFieldName f))) acc
  | some (Attr.val PyVal.none_) => dinsert f.name (smart_str PyVal.none_) acc
  | _ => acc
termination_by (sizeOf o, 0, 0)
decreasing_by
  (try simp_wf)
  have h1 := getattr_obj_sizeOf hg
  apply Prod.Lex.left
  (try simp only [List.cons.sizeOf_spec, List.nil.sizeOf_spec])
  omega

/-- The m2m loop of base.py serialize. -/
def processM2M (o : Obj) (opts : Options) :
    List M2MFieldD → List (String × PyVal) → List (String × PyVal)
  | [], acc => acc
  | f :: fs, acc => processM2M o opts fs (m2mStep o opts f acc)
termination_by fs acc => (sizeOf o, 2, sizeOf fs)
decreasing_by
  all_goals
    first
    | ((try simp_wf); apply Prod.Lex.right; apply Prod.Lex.left; omega)
    | ((try simp_wf); apply Prod.Lex.right; apply Prod.Lex.right;
       (try simp only [List.cons.sizeOf_spec]); omega)

/-- Dispatch for one m2m field in base.py serialize: the serialize flag
then the excludes/fields filter on field.attname. -/
def m2mStep (o : Obj) (opts : Options) (f : M2MFieldD) (acc : List (String × PyVal)) :
    List (String × PyVal) :=
  if f.serialize then
    if passFilter opts f.attname then handle_m2m_field o f opts acc else acc
  else acc
termination_by (sizeOf o, 1, 0)
decreasing_by
  (try simp_wf); apply Prod.Lex.right; apply Prod.Lex.left; omega

/-- python.py handle_m2m_field: only auto-created through models produce
output; expanded relations store per-member serialize([related])[0]
records, otherwise natural keys or smart_str of each member's pk. -/
def handle_m2m_field (o : Obj) (f : M2MFieldD) (opts : Options) (acc : List (String × PyVal)) :
    List (String × PyVal) :=
  if f.throughAutoCreated then
    match hg : getattr o f.name with
    | some (Attr.manager os) =>
      if Relations.mem opts.relations f.name then
        dinsert f.name (.list (serialize os (Relations.nestedOpts opts.relations f.name))) acc
      else
        if opts.use_natural_keys && f.toHasNaturalKey then
          dinsert f.name (.list (os.map (fun r => r.naturalKey.getD PyVal.none_))) acc
        else
          dinsert f.name (.list (os.map (fun r => smart_str r.pk))) acc
    | _ => acc
  else acc
termination_by (sizeOf o, 0, 0)
decreasing_by
  (try simp_wf)
  have h1 := getattr_manager_sizeOf hg
  apply Prod.Lex.left
  omega

/-- The reverse-fk loop of base.py serialize. -/
def processRevFk (o : Obj) (opts : Options) :
    List String → List (String × PyVal) → List (String × PyVal)
  | [], acc => acc
  | a :: ns, acc => processRevFk o opts ns (revFkStep o opts a acc)
termination_by ns acc => (sizeOf o, 2, sizeOf ns)
decreasing_by
  all_goals
    first
    | ((try simp_wf); apply Prod.Lex.right; apply Prod.Lex.left; omega)
    | ((try simp_wf); apply Prod.Lex.right; apply Prod.Lex.right;
       (try simp only [List.cons.sizeOf_spec]); omega)

/-- One reverse-fk accessor in base.py serialize: filtered by excludes
only, never by the fields allow-list. -/
def revFkStep (o : Obj) (opts : Options) (a : String) (acc : List (String × PyVal)) :
    List (String × PyVal) :=
  if opts.excludes.contains a then acc else handle_related_fk_field o a opts acc
termination_by (sizeOf o, 1, 0)
decreasing_by
  (try simp_wf); apply Prod.Lex.right; apply Prod.Lex.left; omega

/-- python.py handle_related_fk_field: a non-None related value produces
output only when the accessor is in relations (a record list for a
manager, a single record otherwise); a None related value is stored via
smart_str regardless of relations. -/
def handle_related_fk_field (o : Obj) (fname : String) (opts : Options)
    (acc : List (String × PyVal)) : List (String × PyVal) :=
  match hg : getattr o fname with
  | some (Attr.manager os) =>
    if Relations.mem opts.relations fname then
      dinsert fname (.list (serialize os (Relations.nestedOpts opts.relations fname))) acc
    else acc
  | some (Attr.obj r) =>
    if Relations.mem opts.relations fname then
      dinsert fname
        ((serialize [r] (Relations.nestedOpts opts.relations fname)).headD PyVal.none_) acc
    else acc
  | some (Attr.val PyVal.none_) => dinsert fname (smart_str PyVal.none_) acc
  | _ => acc
termination_by (sizeOf o, 0, 0)
decreasing_by
  all_goals
    first
    | ((try simp_wf); have h1 := getattr_manager_sizeOf hg; apply Prod.Lex.left; omega)
    | ((try simp_wf); have h1 := getattr_obj_sizeOf hg; apply Prod.Lex.left;
       (try simp only [List.cons.sizeOf_spec, List.nil.sizeOf_spec]); omega)

/-- The reverse-m2m loop of base.py serialize. -/
def processRevM2m (o : Obj) (opts : Options) :
    List String → List (String × PyVal) → List (String × PyVal)
  | [], acc => acc
  | a :: ns, acc => processRevM2m o opts ns (revM2mStep o opts a acc)
termination_by ns acc => (sizeOf o, 2, sizeOf ns)
decreasing_by
  all_goals
    first
    | ((try simp_wf); apply Prod.Lex.right; apply Prod.Lex.left; omega)
    | ((try simp_wf); apply Prod.Lex.right; apply Prod.Lex.right;
       (try simp only [List.cons.sizeOf_spec]); omega)

/-- One reverse-m2m accessor in base.py serialize: excludes filter only. -/
def revM2mStep (o : Obj) (opts : Options) (a : String) (acc : List (String × PyVal)) :
    List (String × PyVal) :=
  if opts.excludes.contains a then acc else handle_related_m2m_field o a opts acc
termination_by (sizeOf o, 1, 0)
decreasing_by
  (try simp_wf); apply Prod.Lex.right; apply Prod.Lex.left; omega

/-- python.py handle_related_m2m_field: output only when the accessor is
in relations, a record per member of the collection; otherwise nothing. -/
def handle_related_m2m_field (o : Obj) (fname : String) (opts : Options)
    (acc : List (String × PyVal)) : List (String × PyVal) :=
  if Relations.mem opts.relations fname then
    match hg : getattr o fname with
    | some (Attr.manager os) =>
      dinsert fname (.list (serialize os (Relations.nestedOpts opts.relations fname))) acc
    | _ => acc
  else acc
termination_by (sizeOf o, 0, 0)
decreasing_by
  (try simp_wf)
  have h1 := getattr_manager_sizeOf hg
  apply Prod.Lex.left
  omega

end

/-- The fields dict of a serialized record. -/
def recordFields (r : PyVal) : List (String × PyVal) :=
  match r with
  | .dict kvs =>
    match kvs.lookup "fields" with
    | some (.dict fs) => fs
    | _ => []
  | _ => []

/-- The extras dict of a serialized record, empty when the key is absent. -/
def recordExtras (r : PyVal) : List (String × PyVal) :=
  match r with
  | .dict kvs =>
    match kvs.lookup "extras" with
    | some (.dict ex) => ex
    | _ => []
  | _ => []

end Wos

namespace Wos

theorem lookup_dinsert_self (k : String) (v : PyVal) :
    ∀ l, (dinsert k v l).lookup k = some v
  | [] => by simp [dinsert, List.lookup]
  | (k1, v1) :: rest => by
    by_cases h : k1 = k
    · subst h; simp [dinsert, List.lookup]
    · have hb : (k1 == k) = false := beq_eq_false_iff_ne.mpr h
      have hb2 : (k == k1) = false := beq_eq_false_iff_ne.mpr (Ne.symm h)
      simp [dinsert, hb, List.lookup, hb2, lookup_dinsert_self k v rest]

theorem lookup_dinsert_ne {n k : String} (h : n ≠ k) (v : PyVal) :
    ∀ l, (dinsert k v l).lookup n = l.lookup n
  | [] => by
    have hb : (n == k) = false := beq_eq_false_iff_ne.mpr h
    simp [dinsert, List.lookup, hb]
  | (k1, v1) :: rest => by
    by_cases h1 : k1 = k
    · subst h1
      have hb : (n == k1) = false := beq_eq_false_iff_ne.mpr h
      simp [dinsert, List.lookup, hb]
    · have hb1 : (k1 == k) = false := beq_eq_false_iff_ne.mpr h1
      simp only [dinsert, hb1, Bool.false_eq_true, if_false]
      rw [List.lookup, List.lookup]
      cases hnk : n == k1
      · simp [lookup_dinsert_ne h v rest]
      · simp

theorem handle_field_lookup_ne {f : FieldD} {N : String} (h : f.name ≠ N)
    (acc : List (String × PyVal)) :
    (handle_field f acc).lookup N = acc.lookup N := by
  rw [handle_field]
  split <;> exact lookup_dinsert_ne (Ne.symm h) _ acc

theorem handle_fk_lookup_ne {o : Obj} {f : FieldD} {opts : Options} {N : String}
    (h : f.name ≠ N) (acc : List (String × PyVal)) :
    (handle_fk_field o f opts acc).lookup N = acc.lookup N := by
  rw [handle_fk_field]
  repeat' split
  all_goals first | rfl | exact lookup_dinsert_ne (Ne.symm h) _ acc

theorem handle_m2m_lookup_ne {o : Obj} {f : M2MFieldD} {opts : Options} {N : String}
    (h : f.name ≠ N) (acc : List (String × PyVal)) :
    (handle_m2m_field o f opts acc).lookup N = acc.lookup N := by
  rw [handle_m2m_field]
  repeat' split
  all_goals first | rfl | exact lookup_dinsert_ne (Ne.symm h) _ acc

theorem handle_related_fk_lookup_ne {o : Obj} {a : String} {opts : Options} {N : String}
    (h : a ≠ N) (acc : List (String × PyVal)) :
    (handle_related_fk_field o a opts acc).lookup N = acc.lookup N := by
  rw [handle_related_fk_field]
  repeat' split
  all_goals first | rfl | exact lookup_dinsert_ne (Ne.symm h) _ acc

theorem handle_related_m2m_lookup_ne {o : Obj} {a : String} {opts : Options} {N : String}
    (h : a ≠ N) (acc : List (String × PyVal)) :
    (handle_related_m2m_field o a opts acc).lookup N = acc.lookup N := by
  rw [handle_related_m2m_field]
  repeat' split
  all_goals first | rfl | exact lookup_dinsert_ne (Ne.symm h) _ acc

theorem handle_extra_lookup_ne {o : Obj} {e : String} {N : String}
    (h : e ≠ N) (ex : List (String × PyVal)) :
    (handle_extra_field o e ex).lookup N = ex.lookup N := by
  rw [handle_extra_field]
  repeat' split
  all_goals first | rfl | exact lookup_dinsert_ne (Ne.symm h) _ ex

theorem localStep_lookup_ne {o : Obj} {opts : Options} {f : FieldD} {N : String}
    (h : f.name ≠ N) (acc : List (String × PyVal)) :
    (localStep o opts f acc).lookup N = acc.lookup N := by
  rw [localStep]
  repeat' split
  all_goals first | rfl | exact handle_field_lookup_ne h acc | exact handle_fk_lookup_ne h acc

theorem m2mStep_lookup_ne {o : Obj} {opts : Options} {f : M2MFieldD} {N : String}
    (h : f.name ≠ N) (acc : List (String × PyVal)) :
    (m2mStep o opts f acc).lookup N = acc.lookup N := by
  rw [m2mStep]
  repeat' split
  all_goals first | rfl | exact handle_m2m_lookup_ne h acc

theorem revFkStep_lookup_ne {o : Obj} {opts : Options} {a : String} {N : String}
    (h : a ≠ N) (acc : List (String × PyVal)) :
    (revFkStep o opts a acc).lookup N = acc.lookup N := by
  rw [revFkStep]
  split
  · rfl
  · exact handle_related_fk_lookup_ne h acc

theorem revM2mStep_lookup_ne {o : Obj} {opts : Options} {a : String} {N : String}
    (h : a ≠ N) (acc : List (String × PyVal)) :
    (revM2mStep o opts a acc).lookup N = acc.lookup N := by
  rw [revM2mStep]
  split
  · rfl
  · exact handle_related_m2m_lookup_ne h acc

theorem processLocal_stable {o : Obj} {opts : Options} {N : String} :
    ∀ fs acc, (∀ f ∈ fs, ∀ x, (localStep o opts f x).lookup N = x.lookup N) →
      (processLocal o opts fs acc).lookup N = acc.lookup N
  | [], acc, _ => by rw [processLocal]
  | f :: fs, acc, h => by
    rw [processLocal]
    rw [processLocal_stable fs _ fun g hg x => h g (List.mem_cons_of_mem f hg) x]
    exact h f (List.mem_cons_self f fs) acc

theorem processM2M_stable {o : Obj} {opts : Options} {N : String} :
    ∀ fs acc, (∀ f ∈ fs, ∀ x, (m2mStep o opts f x).lookup N = x.lookup N) →
      (processM2M o opts fs acc).lookup N = acc.lookup N
  | [], acc, _ => by rw [processM2M]
  | f :: fs, acc, h => by
    rw [processM2M]
    rw [processM2M_stable fs _ fun g hg x => h g (List.mem_cons_of_mem f hg) x]
    exact h f (List.mem_cons_self f fs) acc

theorem processRevFk_stable {o : Obj} {opts : Options} {N : String} :
    ∀ ns acc, (∀ a ∈ ns, ∀ x, (revFkStep o opts a x).lookup N = x.lookup N) →
      (processRevFk o opts ns acc).lookup N = acc.lookup N
  | [], acc, _ => by rw [processRevFk]
  | a :: ns, acc, h => by
    rw [processRevFk]
    rw [processRevFk_stable ns _ fun b hb x => h b (List.mem_cons_of_mem a hb) x]
    exact h a (List.mem_cons_self a ns) acc

theorem processRevM2m_stable {o : Obj} {opts : Options} {N : String} :
    ∀ ns acc, (∀ a ∈ ns, ∀ x, (revM2mStep o opts a x).lookup N = x.lookup N) →
      (processRevM2m o opts ns acc).lookup N = acc.lookup N
  | [], acc, _ => by rw [processRevM2m]
  | a :: ns, acc, h => by
    rw [processRevM2m]
    rw [processRevM2m_stable ns _ fun b hb x => h b (List.mem_cons_of_mem a hb) x]
    exact h a (List.mem_cons_self a ns) acc

theorem processExtras_stable {o : Obj} {N : String} :
    ∀ es ex, (∀ e ∈ es, ∀ x, (handle_extra_field o e x).lookup N = x.lookup N) →
      (processExtras o es ex).lookup N = ex.lookup N
  | [], ex, _ => by rw [processExtras]
  | e :: es, ex, h => by
    rw [processExtras]
    rw [processExtras_stable es _ fun b hb x => h b (List.mem_cons_of_mem e hb) x]
    exact h e (List.mem_cons_self e es) ex

theorem processLocal_write {o : Obj} {opts : Options} {N : String} {v : PyVal} :
    ∀ fs acc, (∀ f ∈ fs, (∀ x, (localStep o opts f x).lookup N = x.lookup N) ∨
                         (∀ x, (localStep o opts f x).lookup N = some v)) →
      ((∃ f ∈ fs, ∀ x, (localStep o opts f x).lookup N = some v) ∨ acc.lookup N = some v) →
      (processLocal o opts fs acc).lookup N = some v
  | [], acc, _, hstart => by
    rw [processLocal]
    rcases hstart with ⟨f, hf, _⟩ | h
    · exact absurd hf (List.not_mem_nil f)
    · exact h
  | f :: fs, acc, h, hstart => by
    rw [processLocal]
    apply processLocal_write fs _ (fun g hg => h g (List.mem_cons_of_mem f hg))
    rcases hstart with ⟨g, hg, hgw⟩ | hacc
    · rcases List.mem_cons.1 hg with rfl | hg2
      · right; exact hgw acc
      · left; exact ⟨g, hg2, hgw⟩
    · rcases h f (List.mem_cons_self f fs) with hpres | hwrite
      · right; rw [hpres]; exact hacc
      · right; exact hwrite acc

theorem processM2M_write {o : Obj} {opts : Options} {N : String} {v : PyVal} :
    ∀ fs acc, (∀ f ∈ fs, (∀ x, (m2mStep o opts f x).lookup N = x.lookup N) ∨
                         (∀ x, (m2mStep o opts f x).lookup N = some v)) →
      ((∃ f ∈ fs, ∀ x, (m2mStep o opts f x).lookup N = some v) ∨ acc.lookup N = some v) →
      (processM2M o opts fs acc).lookup N = some v
  | [], acc, _, hstart => by
    rw [processM2M]
    rcases hstart with ⟨f, hf, _⟩ | h
    · exact absurd hf (List.not_mem_nil f)
    · exact h
  | f :: fs, acc, h, hstart => by
    rw [processM2M]
    apply processM2M_write fs _ (fun g hg => h g (List.mem_cons_of_mem f hg))
    rcases hstart with ⟨g, hg, hgw⟩ | hacc
    · rcases List.mem_cons.1 hg with rfl | hg2
      · right; exact hgw acc
      · left; exact ⟨g, hg2, hgw⟩
    · rcases h f (List.mem_cons_self f fs) with hpres | hwrite
      · right; rw [hpres]; exact hacc
      · right; exact hwrite acc

theorem processRevFk_write {o : Obj} {opts : Options} {N : String} {v : PyVal} :
    ∀ ns acc, (∀ a ∈ ns, (∀ x, (revFkStep o opts a x).lookup N = x.lookup N) ∨
                         (∀ x, (revFkStep o opts a x).lookup N = some v)) →
      ((∃ a ∈ ns, ∀ x, (revFkStep o opts a x).lookup N = some v) ∨ acc.lookup N = some v) →
      (processRevFk o opts ns acc).lookup N = some v
  | [], acc, _, hstart => by
    rw [processRevFk]
    rcases hstart with ⟨a, ha, _⟩ | h
    · exact absurd ha (List.not_mem_nil a)
    · exact h
  | a :: ns, acc, h, hstart => by
    rw [processRevFk]
    apply processRevFk_write ns _ (fun b hb => h b (List.mem_cons_of_mem a hb))
    rcases hstart with ⟨b, hb, hbw⟩ | hacc
    · rcases List.mem_cons.1 hb with rfl | hb2
      · right; exact hbw acc
      · left; exact ⟨b, hb2, hbw⟩
    · rcases h a (List.mem_cons_self a ns) with hpres | hwrite
      · right; rw [hpres]; exact hacc
      · right; exact hwrite acc

theorem processRevM2m_write {o : Obj} {opts : Options} {N : String} {v : PyVal} :
    ∀ ns acc, (∀ a ∈ ns, (∀ x, (revM2mStep o opts a x).lookup N = x.lookup N) ∨
                         (∀ x, (revM2mStep o opts a x).lookup N = some v)) →
      ((∃ a ∈ ns, ∀ x, (revM2mStep o opts a x).lookup N = some v) ∨ acc.lookup N = some v) →
      (processRevM2m o opts ns acc).lookup N = some v
  | [], acc, _, hstart => by
    rw [processRevM2m]
    rcases hstart with ⟨a, ha, _⟩ | h
    · exact absurd ha (List.not_mem_nil a)
    · exact h
  | a :: ns, acc, h, hstart => by
    rw [processRevM2m]
    apply processRevM2m_write ns _ (fun b hb => h b (List.mem_cons_of_mem a hb))
    rcases hstart with ⟨b, hb, hbw⟩ | hacc
    · rcases List.mem_cons.1 hb with rfl | hb2
      · right; exact hbw acc
      · left; exact ⟨b, hb2, hbw⟩
    · rcases h a (List.mem_cons_self a ns) with hpres | hwrite
      · right; rw [hpres]; exact hacc
      · right; exact hwrite acc

theorem processExtras_write {o : Obj} {N : String} {v : PyVal} :
    ∀ es ex, (∀ e ∈ es, (∀ x, (handle_extra_field o e x).lookup N = x.lookup N) ∨
                        (∀ x, (handle_extra_field o e x).lookup N = some v)) →
      ((∃ e ∈ es, ∀ x, (handle_extra_field o e x).lookup N = some v) ∨ ex.lookup N = some v) →
      (processExtras o es ex).lookup N = some v
  | [], ex, _, hstart => by
    rw [processExtras]
    rcases hstart with ⟨e, he, _⟩ | h
    · exact absurd he (List.not_mem_nil e)
    · exact h
  | e :: es, ex, h, hstart => by
    rw [processExtras]
    apply processExtras_write es _ (fun b hb => h b (List.mem_cons_of_mem e hb))
    rcases hstart with ⟨b, hb, hbw⟩ | hacc
    · rcases List.mem_cons.1 hb with rfl | hb2
      · right; exact hbw ex
      · left; exact ⟨b, hb2, hbw⟩
    · rcases h e (List.mem_cons_self e es) with hpres | hwrite
      · right; rw [hpres]; exact hacc
      · right; exact hwrite ex

theorem recordFields_serializeObj (o : Obj) (opts : Options) :
    recordFields (serializeObj o opts) =
      processRevM2m o opts o.reverseM2m
        (processRevFk o opts o.reverseFk
          (processM2M o opts o.many_to_many
            (processLocal o opts o.local_fields []))) := by
  rw [serializeObj]
  by_cases h : (processExtras o opts.extras []).isEmpty <;>
    simp +decide [h, recordFields, List.lookup]

theorem recordExtras_serializeObj (o : Obj) (opts : Options) :
    recordExtras (serializeObj o opts) = processExtras o opts.extras [] := by
  rw [serializeObj]
  by_cases h : (processExtras o opts.extras []).isEmpty
  · have he : processExtras o opts.extras [] = [] := by
      cases hx : processExtras o opts.extras []
      · rfl
      · rw [hx] at h; simp at h
    simp +decide [recordExtras, List.lookup, h, he]
  · simp +decide [recordExtras, List.lookup, h]

end Wos

namespace Wos

/-- The keys the five field loops may write into a record's fields dict:
local field names, m2m field names, and reverse accessor names. -/
def writerNames (o : Obj) : List String :=
  o.local_fields.map FieldD.name ++ o.many_to_many.map M2MFieldD.name ++
    o.reverseFk ++ o.reverseM2m

/-- All writer names of an object are pairwise distinct: what Django's
per-model field and accessor name uniqueness provides. -/
def Obj.wfNames (o : Obj) : Prop := (writerNames o).Nodup

/-- Django naming conventions: a direct field's attname is its name, a
ForeignKey's attname is its name with an "_id" suffix, an m2m field's
attname is its name. -/
def Obj.djangoNames (o : Obj) : Prop :=
  (∀ f ∈ o.local_fields, (f.rel = none → f.attname = f.name) ∧
    (f.rel ≠ none → f.attname = f.name ++ "_id")) ∧
  (∀ f ∈ o.many_to_many, f.attname = f.name)

theorem wfNames_local_facts {o : Obj} (h : o.wfNames) {f : FieldD} (hf : f ∈ o.local_fields) :
    (∀ g ∈ o.local_fields, g.name = f.name → g = f) ∧
    f.name ∉ o.many_to_many.map M2MFieldD.name ∧
    f.name ∉ o.reverseFk ∧ f.name ∉ o.reverseM2m := by
  rw [Obj.wfNames, writerNames] at h
  obtain ⟨habc, hd, hdj3⟩ := List.nodup_append.mp h
  obtain ⟨hab, hc, hdj2⟩ := List.nodup_append.mp habc
  obtain ⟨ha, hb, hdj1⟩ := List.nodup_append.mp hab
  have hmem : f.name ∈ o.local_fields.map FieldD.name := List.mem_map_of_mem FieldD.name hf
  refine ⟨fun g hg he => List.inj_on_of_nodup_map ha hg hf he,
    List.disjoint_left.mp hdj1 hmem, ?_, ?_⟩
  · exact List.disjoint_left.mp hdj2 (by simp only [List.mem_append]; left; exact hmem)
  · exact List.disjoint_left.mp hdj3
      (by simp only [List.mem_append]; left; left; exact hmem)

theorem wfNames_m2m_facts {o : Obj} (h : o.wfNames) {f : M2MFieldD} (hf : f ∈ o.many_to_many) :
    (∀ g ∈ o.many_to_many, g.name = f.name → g = f) ∧
    f.name ∉ o.local_fields.map FieldD.name ∧
    f.name ∉ o.reverseFk ∧ f.name ∉ o.reverseM2m := by
  rw [Obj.wfNames, writerNames] at h
  obtain ⟨habc, hd, hdj3⟩ := List.nodup_append.mp h
  obtain ⟨hab, hc, hdj2⟩ := List.nodup_append.mp habc
  obtain ⟨ha, hb, hdj1⟩ := List.nodup_append.mp hab
  have hmem : f.name ∈ o.many_to_many.map M2MFieldD.name := List.mem_map_of_mem M2MFieldD.name hf
  refine ⟨fun g hg he => List.inj_on_of_nodup_map hb hg hf he,
    fun hx => (List.disjoint_left.mp hdj1 hx) hmem, ?_, ?_⟩
  · exact List.disjoint_left.mp hdj2 (by simp only [List.mem_append]; right; exact hmem)
  · exact List.disjoint_left.mp hdj3
      (by simp only [List.mem_append]; left; right; exact hmem)

theorem wfNames_revFk_facts {o : Obj} (h : o.wfNames) {a : String} (hf : a ∈ o.reverseFk) :
    a ∉ o.local_fields.map FieldD.name ∧
    a ∉ o.many_to_many.map M2MFieldD.name ∧ a ∉ o.reverseM2m := by
  rw [Obj.wfNames, writerNames] at h
  obtain ⟨habc, hd, hdj3⟩ := List.nodup_append.mp h
  obtain ⟨hab, hc, hdj2⟩ := List.nodup_append.mp habc
  obtain ⟨ha, hb, hdj1⟩ := List.nodup_append.mp hab
  refine ⟨?_, ?_, ?_⟩
  · intro hx
    exact (List.disjoint_left.mp hdj2 (by simp only [List.mem_append]; left; exact hx)) hf
  · intro hx
    exact (List.disjoint_left.mp hdj2 (by simp only [List.mem_append]; right; exact hx)) hf
  · exact List.disjoint_left.mp hdj3 (by simp only [List.mem_append]; right; exact hf)

theorem wfNames_revM2m_facts {o : Obj} (h : o.wfNames) {a : String} (hf : a ∈ o.reverseM2m) :
    a ∉ o.local_fields.map FieldD.name ∧
    a ∉ o.many_to_many.map M2MFieldD.name ∧ a ∉ o.reverseFk := by
  rw [Obj.wfNames, writerNames] at h
  obtain ⟨habc, hd, hdj3⟩ := List.nodup_append.mp h
  obtain ⟨hab, hc, hdj2⟩ := List.nodup_append.mp habc
  obtain ⟨ha, hb, hdj1⟩ := List.nodup_append.mp hab
  refine ⟨?_, ?_, ?_⟩
  · intro hx
    exact (List.disjoint_left.mp hdj3
      (by simp only [List.mem_append]; left; left; exact hx)) hf
  · intro hx
    exact (List.disjoint_left.mp hdj3
      (by simp only [List.mem_append]; left; right; exact hx)) hf
  · intro hx
    exact (List.disjoint_left.mp hdj3
      (by simp only [List.mem_append]; right; exact hx)) hf

theorem pyDropLast3_append_id (s : String) : pyDropLast3 (s ++ "_id") = s := by
  cases s with
  | mk data =>
    have h1 : (String.mk data ++ "_id") = String.mk (data ++ ['_', 'i', 'd']) := rfl
    rw [pyDropLast3, h1]
    show String.mk ((data ++ ['_', 'i', 'd']).dropLast.dropLast.dropLast) = String.mk data
    congr 1
    have e1 : data ++ ['_', 'i', 'd'] = (data ++ ['_', 'i']) ++ ['d'] := by simp
    have e2 : data ++ ['_', 'i'] = (data ++ ['_']) ++ ['i'] := by simp
    rw [e1, List.dropLast_concat, e2, List.dropLast_concat, List.dropLast_concat]

theorem fkTestName_eq_name {f : FieldD} (h : f.attname = f.name ++ "_id") :
    fkTestName f = f.name := by
  rw [fkTestName, h, pyDropLast3_append_id]

theorem passFilter_false_of_excluded {opts : Options} {n : String}
    (h : opts.excludes.contains n = true) : passFilter opts n = false := by
  rw [passFilter, h]
  rfl

theorem passFilter_false_of_not_in_fields {opts : Options} {n : String}
    (h1 : opts.fields.isEmpty = false) (h2 : opts.fields.contains n = false) :
    passFilter opts n = false := by
  rw [passFilter, h1, h2]
  simp

end Wos

namespace Wos

theorem localStep_filtered {o : Obj} {opts : Options} {f : FieldD}
    (h1 : f.rel = none → passFilter opts f.attname = false)
    (h2 : f.rel ≠ none → passFilter opts (fkTestName f) = false)
    (acc : List (String × PyVal)) : localStep o opts f acc = acc := by
  rw [localStep]
  split
  · split
    · next hn => rw [h1 hn]; simp
    · next r hn => rw [h2 (by rw [hn]; exact Option.some_ne_none r)]; simp
  · rfl

theorem m2mStep_filtered {o : Obj} {opts : Options} {f : M2MFieldD}
    (h : passFilter opts f.attname = false)
    (acc : List (String × PyVal)) : m2mStep o opts f acc = acc := by
  rw [m2mStep]
  split
  · rw [h]; simp
  · rfl

theorem handle_m2m_custom_through {o : Obj} {opts : Options} {f : M2MFieldD}
    (h : f.throughAutoCreated = false)
    (acc : List (String × PyVal)) : handle_m2m_field o f opts acc = acc := by
  rw [handle_m2m_field, h]
  simp

theorem m2mStep_custom_through {o : Obj} {opts : Options} {f : M2MFieldD}
    (h : f.throughAutoCreated = false)
    (acc : List (String × PyVal)) : m2mStep o opts f acc = acc := by
  rw [m2mStep]
  split
  · split
    · exact handle_m2m_custom_through h acc
    · rfl
  · rfl

theorem revFkStep_excluded {o : Obj} {opts : Options} {a : String}
    (h : opts.excludes.contains a = true)
    (acc : List (String × PyVal)) : revFkStep o opts a acc = acc := by
  rw [revFkStep, h]
  simp

theorem handle_related_fk_skip {o : Obj} {opts : Options} {a : String}
    (h1 : Relations.mem opts.relations a = false)
    (h2 : getattr o a ≠ some (Attr.val PyVal.none_))
    (acc : List (String × PyVal)) : handle_related_fk_field o a opts acc = acc := by
  rw [handle_related_fk_field]
  split
  · rw [h1]; simp
  · rw [h1]; simp
  · next heq => exact absurd heq h2
  · rfl

theorem revFkStep_skip {o : Obj} {opts : Options} {a : String}
    (h1 : Relations.mem opts.relations a = false)
    (h2 : getattr o a ≠ some (Attr.val PyVal.none_))
    (acc : List (String × PyVal)) : revFkStep o opts a acc = acc := by
  rw [revFkStep]
  split
  · rfl
  · exact handle_related_fk_skip h1 h2 acc

theorem handle_related_m2m_skip {o : Obj} {opts : Options} {a : String}
    (h1 : Relations.mem opts.relations a = false)
    (acc : List (String × PyVal)) : handle_related_m2m_field o a opts acc = acc := by
  rw [handle_related_m2m_field, h1]
  simp

theorem revM2mStep_skip {o : Obj} {opts : Options} {a : String}
    (h1 : Relations.mem opts.relations a = false)
    (acc : List (String × PyVal)) : revM2mStep o opts a acc = acc := by
  rw [revM2mStep]
  split
  · rfl
  · exact handle_related_m2m_skip h1 acc

theorem revM2mStep_excluded {o : Obj} {opts : Options} {a : String}
    (h : opts.excludes.contains a = true)
    (acc : List (String × PyVal)) : revM2mStep o opts a acc = acc := by
  rw [revM2mStep, h]
  simp

theorem handle_fk_expanded {o : Obj} {opts : Options} {f : FieldD} {r : Obj}
    (hget : getattr o f.name = some (Attr.obj r))
    (hexp : Relations.mem opts.relations f.name = true)
    (acc : List (String × PyVal)) :
    (handle_fk_field o f opts acc).lookup f.name =
      some ((serialize [r] (Relations.nestedOpts opts.relations f.name)).headD PyVal.none_) := by
  rw [handle_fk_field]
  split
  · next r2 heq =>
    rw [hget] at heq
    have hr : r = r2 := by injection heq with h3; injection h3
    subst hr
    rw [hexp]
    simp only [if_true]
    exact lookup_dinsert_self f.name _ acc
  · next heq => rw [hget] at heq; simp at heq
  · next hno1 hno2 => exact absurd hget (hno1 r)

theorem localStep_fk_expanded {o : Obj} {opts : Options} {f : FieldD} {r : Obj}
    (hser : f.serialize = true) (hrel : f.rel ≠ none)
    (hfil : passFilter opts (fkTestName f) = true)
    (hget : getattr o f.name = some (Attr.obj r))
    (hexp : Relations.mem opts.relations f.name = true)
    (acc : List (String × PyVal)) :
    (localStep o opts f acc).lookup f.name =
      some ((serialize [r] (Relations.nestedOpts opts.relations f.name)).headD PyVal.none_) := by
  rw [localStep, hser]
  simp only [if_true]
  split
  · next hn => exact absurd hn hrel
  · next x hn =>
    rw [hfil]
    simp only [if_true]
    exact handle_fk_expanded hget hexp acc

theorem handle_fk_pk {o : Obj} {opts : Options} {f : FieldD} {r : Obj}
    (hget : getattr o f.name = some (Attr.obj r))
    (hexp : Relations.mem opts.relations f.name = false)
    (hnk : opts.use_natural_keys = false)
    (hpk : relFieldName f = r.pkName)
    (acc : List (String × PyVal)) :
    (handle_fk_field o f opts acc).lookup f.name = some r.pk := by
  rw [handle_fk_field]
  split
  · next r2 heq =>
    rw [hget] at heq
    have hr : r = r2 := by injection heq with h3; injection h3
    subst hr
    rw [hexp]
    simp only [Bool.false_eq_true, if_false]
    rw [hnk]
    simp only [Bool.false_and, Bool.false_eq_true, if_false]
    rw [hpk]
    simp only [beq_self_eq_true, if_true]
    exact lookup_dinsert_self f.name _ acc
  · next heq => rw [hget] at heq; simp at heq
  · next hno1 hno2 => exact absurd hget (hno1 r)

theorem localStep_fk_pk {o : Obj} {opts : Options} {f : FieldD} {r : Obj}
    (hser : f.serialize = true) (hrel : f.rel ≠ none)
    (hfil : passFilter opts (fkTestName f) = true)
    (hget : getattr o f.name = some (Attr.obj r))
    (hexp : Relations.mem opts.relations f.name = false)
    (hnk : opts.use_natural_keys = false)
    (hpk : relFieldName f = r.pkName)
    (acc : List (String × PyVal)) :
    (localStep o opts f acc).lookup f.name = some r.pk := by
  rw [localStep, hser]
  simp only [if_true]
  split
  · next hn => exact absurd hn hrel
  · next x hn =>
    rw [hfil]
    simp only [if_true]
    exact handle_fk_pk hget hexp hnk hpk acc

theorem handle_fk_none {o : Obj} {opts : Options} {f : FieldD}
    (hget : getattr o f.name = some (Attr.val PyVal.none_))
    (acc : List (String × PyVal)) :
    (handle_fk_field o f opts acc).lookup f.name = some (smart_str PyVal.none_) := by
  rw [handle_fk_field]
  split
  · next r2 heq => rw [hget] at heq; simp at heq
  · next heq => exact lookup_dinsert_self f.name _ acc
  · next hno1 hno2 => exact absurd hget hno2

theorem localStep_fk_none {o : Obj} {opts : Options} {f : FieldD}
    (hser : f.serialize = true) (hrel : f.rel ≠ none)
    (hfil : passFilter opts (fkTestName f) = true)
    (hget : getattr o f.name = some (Attr.val PyVal.none_))
    (acc : List (String × PyVal)) :
    (localStep o opts f acc).lookup f.name = some (smart_str PyVal.none_) := by
  rw [localStep, hser]
  simp only [if_true]
  split
  · next hn => exact absurd hn hrel
  · next x hn =>
    rw [hfil]
    simp only [if_true]
    exact handle_fk_none hget acc

theorem m2mStep_pk_list {o : Obj} {opts : Options} {f : M2MFieldD} {os : List Obj}
    (hser : f.serialize = true)
    (hfil : passFilter opts f.attname = true)
    (hauto : f.throughAutoCreated = true)
    (hget : getattr o f.name = some (Attr.manager os))
    (hexp : Relations.mem opts.relations f.name = false)
    (hnk : opts.use_natural_keys = false)
    (acc : List (String × PyVal)) :
    (m2mStep o opts f acc).lookup f.name =
      some (PyVal.list (os.map (fun r => smart_str r.pk))) := by
  rw [m2mStep, hser]
  simp only [if_true]
  rw [hfil]
  simp only [if_true]
  rw [handle_m2m_field, hauto]
  simp only [if_true]
  split
  · next os2 heq =>
    rw [hget] at heq
    have hr : os = os2 := by injection heq with h3; injection h3
    subst hr
    rw [hexp]
    simp only [Bool.false_eq_true, if_false]
    rw [hnk]
    simp only [Bool.false_and, Bool.false_eq_true, if_false]
    exact lookup_dinsert_self f.name _ acc
  · next hno => exact absurd hget (hno os)

theorem revFkStep_manager_expanded {o : Obj} {opts : Options} {a : String} {os : List Obj}
    (hexc : opts.excludes.contains a = false)
    (hexp : Relations.mem opts.relations a = true)
    (hget : getattr o a = some (Attr.manager os))
    (acc : List (String × PyVal)) :
    (revFkStep o opts a acc).lookup a =
      some (PyVal.list (serialize os (Relations.nestedOpts opts.relations a))) := by
  rw [revFkStep, hexc]
  simp only [Bool.false_eq_true, if_false]
  rw [handle_related_fk_field]
  split
  · next os2 heq =>
    rw [hget] at heq
    have hr : os = os2 := by injection heq with h3; injection h3
    subst hr
    rw [hexp]
    simp only [if_true]
    exact lookup_dinsert_self a _ acc
  · next heq => rw [hget] at heq; simp at heq
  · next heq => rw [hget] at heq; simp at heq
  · next hno1 hno2 hno3 => exact absurd hget (hno1 os)

theorem revM2mStep_manager_expanded {o : Obj} {opts : Options} {a : String} {os : List Obj}
    (hexc : opts.excludes.contains a = false)
    (hexp : Relations.mem opts.relations a = true)
    (hget : getattr o a = some (Attr.manager os))
    (acc : List (String × PyVal)) :
    (revM2mStep o opts a acc).lookup a =
      some (PyVal.list (serialize os (Relations.nestedOpts opts.relations a))) := by
  rw [revM2mStep, hexc]
  simp only [Bool.false_eq_true, if_false]
  rw [handle_related_m2m_field, hexp]
  simp only [if_true]
  split
  · next os2 heq =>
    rw [hget] at heq
    have hr : os = os2 := by injection heq with h3; injection h3
    subst hr
    exact lookup_dinsert_self a _ acc
  · next hno => exact absurd hget (hno os)

theorem handle_extra_missing {o : Obj} {e : String}
    (hget : getattr o e = none) (ex : List (String × PyVal)) :
    handle_extra_field o e ex = ex := by
  rw [handle_extra_field]
  split
  · next heq => rw [hget] at heq; simp at heq
  · next heq => rw [hget] at heq; simp at heq
  · rfl

theorem handle_extra_callable {o : Obj} {e : String} {ret : PyVal}
    (hget : getattr o e = some (Attr.callable ret)) (ex : List (String × PyVal)) :
    (handle_extra_field o e ex).lookup e = some (smart_str ret) := by
  rw [handle_extra_field]
  split
  · next ret2 heq =>
    rw [hget] at heq
    have hr : ret = ret2 := by injection heq with h3; injection h3
    subst hr
    exact lookup_dinsert_self e _ ex
  · next a2 hne hsome =>
    rw [hget] at hsome
    have h3 : Attr.callable ret = a2 := by injection hsome
    exact (hne ret h3.symm).elim
  · next heq => rw [hget] at heq; simp at heq

theorem handle_extra_val {o : Obj} {e : String} {v : PyVal}
    (hget : getattr o e = some (Attr.val v)) (ex : List (String × PyVal)) :
    (handle_extra_field o e ex).lookup e = some (smart_str v) := by
  rw [handle_extra_field]
  split
  · next ret2 heq => rw [hget] at heq; simp at heq
  · next a2 hne hsome =>
    rw [hget] at hsome
    have hr : Attr.val v = a2 := by injection hsome
    subst hr
    exact lookup_dinsert_self e _ ex
  · next heq => rw [hget] at heq; simp at heq

end Wos

namespace Wos

theorem smart_str_none : smart_str PyVal.none_ = PyVal.none_ := rfl

/-- C2: for every object with a forward foreign-key field whose name is in
the relations expand set and whose related object is present (and which the
serialize loop dispatches: serialize flag set, filter passed), the value
stored under the field name is the first record of a fresh nested serialize
call on [related] with the relation-specific nested options (the mapping
entry of relations when it is a mapping with a dict there, else empty). -/
theorem c2_fk_expanded_nested (o : Obj) (opts : Options) (f : FieldD) (r : Obj)
    (hwf : o.wfNames)
    (hf : f ∈ o.local_fields)
    (hser : f.serialize = true)
    (hrel : f.rel ≠ none)
    (hfil : passFilter opts (fkTestName f) = true)
    (hexp : Relations.mem opts.relations f.name = true)
    (hget : getattr o f.name = some (Attr.obj r)) :
    (recordFields (serializeObj o opts)).lookup f.name =
      some ((serialize [r] (Relations.nestedOpts opts.relations f.name)).headD PyVal.none_) := by
  obtain ⟨hinj, hm2m, hrf, hrm⟩ := wfNames_local_facts hwf hf
  rw [recordFields_serializeObj]
  rw [processRevM2m_stable _ _ (fun a ha x => revM2mStep_lookup_ne (fun he => hrm (by rw [he] at ha; exact ha)) x)]
  rw [processRevFk_stable _ _ (fun a ha x => revFkStep_lookup_ne (fun he => hrf (by rw [he] at ha; exact ha)) x)]
  rw [processM2M_stable _ _ (fun g hg x =>
    m2mStep_lookup_ne (fun he => hm2m (by rw [← he]; exact List.mem_map_of_mem M2MFieldD.name hg)) x)]
  refine processLocal_write o.local_fields [] ?_ ?_
  · intro g hg
    by_cases hn : g.name = f.name
    · have hgf : g = f := hinj g hg hn
      subst hgf
      right
      intro x
      exact localStep_fk_expanded hser hrel hfil hget hexp x
    · left
      intro x
      exact localStep_lookup_ne hn x
  · exact Or.inl ⟨f, hf, fun x => localStep_fk_expanded hser hrel hfil hget hexp x⟩

/-- C4 counterexample: an object with a ForeignKey to a related object with
integer primary key 7, referenced through the remote pk, not expanded and
with natural keys off; the stored value is the raw integer 7, not the
string form "7" of the primary-key value. -/
def c4rel : Obj := .mk "app.b" (.int 7) "id" none [] [] [] [] []

def c4fld : FieldD := ⟨"b", "b_id", true, some ⟨"id"⟩, .none_⟩

def c4obj : Obj := .mk "app.a" (.int 1) "id" none [c4fld] [] [] [] [("b", .obj c4rel)]

/-- C4: refuted as stated. At c4obj (ForeignKey "b" to a related object
whose pk is the integer 7, referenced via the remote pk, natural keys off,
"b" not in relations), the stored value is the integer 7 itself, which is
not the string form "7" of the primary-key value. -/
theorem c4_counterexample :
    (recordFields (serializeObj c4obj defaultOptions)).lookup "b" = some (PyVal.int 7) ∧
    some (PyVal.int 7) ≠ some (PyVal.str (pyStr (PyVal.int 7))) := by
  constructor
  · rw [recordFields_serializeObj]
    rw [show Obj.reverseM2m c4obj = [] from rfl, show Obj.reverseFk c4obj = [] from rfl,
      show Obj.many_to_many c4obj = [] from rfl, show Obj.local_fields c4obj = [c4fld] from rfl]
    rw [processRevM2m, processRevFk, processM2M, processLocal, processLocal]
    exact @localStep_fk_pk c4obj defaultOptions c4fld c4rel
      rfl (by decide) (by decide) rfl rfl rfl rfl []
  · intro h
    injection h with h2
    cases h2

/-- C4 amended: for every dispatched forward foreign-key field not named
in relations, with natural keys off, whose referenced remote field is the
target's primary key and whose related object is present, the value stored
under the field name is the related object's raw primary-key value, stored
as is with no string conversion. -/
theorem c4_amended_fk_pk_raw (o : Obj) (opts : Options) (f : FieldD) (r : Obj)
    (hwf : o.wfNames)
    (hf : f ∈ o.local_fields)
    (hser : f.serialize = true)
    (hrel : f.rel ≠ none)
    (hfil : passFilter opts (fkTestName f) = true)
    (hexp : Relations.mem opts.relations f.name = false)
    (hnk : opts.use_natural_keys = false)
    (hpk : relFieldName f = r.pkName)
    (hget : getattr o f.name = some (Attr.obj r)) :
    (recordFields (serializeObj o opts)).lookup f.name = some r.pk := by
  obtain ⟨hinj, hm2m, hrf, hrm⟩ := wfNames_local_facts hwf hf
  rw [recordFields_serializeObj]
  rw [processRevM2m_stable _ _ (fun a ha x => revM2mStep_lookup_ne (fun he => hrm (by rw [he] at ha; exact ha)) x)]
  rw [processRevFk_stable _ _ (fun a ha x => revFkStep_lookup_ne (fun he => hrf (by rw [he] at ha; exact ha)) x)]
  rw [processM2M_stable _ _ (fun g hg x =>
    m2mStep_lookup_ne (fun he => hm2m (by rw [← he]; exact List.mem_map_of_mem M2MFieldD.name hg)) x)]
  refine processLocal_write o.local_fields [] ?_ ?_
  · intro g hg
    by_cases hn : g.name = f.name
    · have hgf : g = f := hinj g hg hn
      subst hgf
      right
      intro x
      exact localStep_fk_pk hser hrel hfil hget hexp hnk hpk x
    · left
      intro x
      exact localStep_lookup_ne hn x
  · exact Or.inl ⟨f, hf, fun x => localStep_fk_pk hser hrel hfil hget hexp hnk hpk x⟩

/-- C4 witness: the amended claim applied at c4obj. -/
theorem c4_amended_witness :
    (recordFields (serializeObj c4obj defaultOptions)).lookup "b" = some (PyVal.int 7) :=
  c4_amended_fk_pk_raw c4obj defaultOptions c4fld c4rel
    (by unfold Obj.wfNames; decide) (List.mem_cons_self c4fld [])
    rfl (by decide) (by decide) (by decide) rfl rfl rfl

/-- C9 counterexample object: an object whose ForeignKey "b" resolves to
None. -/
def c9obj : Obj := .mk "app.a" (.int 1) "id" none [c4fld] [] [] [] [("b", .val .none_)]

/-- C9: refuted as stated. At c9obj (ForeignKey "b" resolving to None) the
stored value is None itself, passed through unchanged by the strings-only
conversion, not the string form "None" of the absent value. -/
theorem c9_counterexample :
    (recordFields (serializeObj c9obj defaultOptions)).lookup "b" = some PyVal.none_ ∧
    some PyVal.none_ ≠ some (PyVal.str (pyStr PyVal.none_)) := by
  constructor
  · rw [recordFields_serializeObj]
    rw [show Obj.reverseM2m c9obj = [] from rfl, show Obj.reverseFk c9obj = [] from rfl,
      show Obj.many_to_many c9obj = [] from rfl, show Obj.local_fields c9obj = [c4fld] from rfl]
    rw [processRevM2m, processRevFk, processM2M, processLocal, processLocal]
    exact @localStep_fk_none c9obj defaultOptions c4fld
      rfl (by decide) (by decide) rfl []
  · intro h
    injection h with h2
    cases h2

/-- C9 amended: for every dispatched forward foreign-key field whose
related object is absent (None), serialization does not fail and the value
stored under the field name is None itself (smart_str with strings_only
preserves None); this holds whether or not the name is in relations, which
appears in no hypothesis. -/
theorem c9_amended_fk_none (o : Obj) (opts : Options) (f : FieldD)
    (hwf : o.wfNames)
    (hf : f ∈ o.local_fields)
    (hser : f.serialize = true)
    (hrel : f.rel ≠ none)
    (hfil : passFilter opts (fkTestName f) = true)
    (hget : getattr o f.name = some (Attr.val PyVal.none_)) :
    (recordFields (serializeObj o opts)).lookup f.name = some PyVal.none_ := by
  obtain ⟨hinj, hm2m, hrf, hrm⟩ := wfNames_local_facts hwf hf
  rw [recordFields_serializeObj]
  rw [processRevM2m_stable _ _ (fun a ha x => revM2mStep_lookup_ne (fun he => hrm (by rw [he] at ha; exact ha)) x)]
  rw [processRevFk_stable _ _ (fun a ha x => revFkStep_lookup_ne (fun he => hrf (by rw [he] at ha; exact ha)) x)]
  rw [processM2M_stable _ _ (fun g hg x =>
    m2mStep_lookup_ne (fun he => hm2m (by rw [← he]; exact List.mem_map_of_mem M2MFieldD.name hg)) x)]
  rw [show (PyVal.none_ : PyVal) = smart_str PyVal.none_ from rfl]
  refine processLocal_write o.local_fields [] ?_ ?_
  · intro g hg
    by_cases hn : g.name = f.name
    · have hgf : g = f := hinj g hg hn
      subst hgf
      right
      intro x
      exact localStep_fk_none hser hrel hfil hget x
    · left
      intro x
      exact localStep_lookup_ne hn x
  · exact Or.inl ⟨f, hf, fun x => localStep_fk_none hser hrel hfil hget x⟩

/-- C9 witness: the amended claim applied at c9obj. -/
theorem c9_amended_witness :
    (recordFields (serializeObj c9obj defaultOptions)).lookup "b" = some PyVal.none_ :=
  c9_amended_fk_none c9obj defaultOptions c4fld
    (by unfold Obj.wfNames; decide) (List.mem_cons_self c4fld [])
    rfl (by decide) (by decide) rfl

end Wos

namespace Wos

/-- C5 counterexample objects: an auto-through m2m field "tags" over a
single related object with integer primary key 7. -/
def c5rel : Obj := .mk "app.t" (.int 7) "id" none [] [] [] [] []

def c5fld : M2MFieldD := ⟨"tags", "tags", true, true, false⟩

def c5obj : Obj := .mk "app.a" (.int 1) "id" none [] [c5fld] [] [] [("tags", .manager [c5rel])]

/-- C5: refuted as stated. At c5obj (m2m field "tags", not expanded,
natural keys off, one related object with integer pk 7) the stored list is
[7] with the integer kept as is, not the list of primary-key strings
["7"]. -/
theorem c5_counterexample :
    (recordFields (serializeObj c5obj defaultOptions)).lookup "tags" =
      some (PyVal.list [PyVal.int 7]) ∧
    PyVal.list [PyVal.int 7] ≠ PyVal.list [PyVal.str "7"] := by
  constructor
  · rw [recordFields_serializeObj]
    rw [show Obj.reverseM2m c5obj = [] from rfl, show Obj.reverseFk c5obj = [] from rfl,
      show Obj.many_to_many c5obj = [c5fld] from rfl, show Obj.local_fields c5obj = [] from rfl]
    rw [processRevM2m, processRevFk, processM2M, processM2M, processLocal]
    exact @m2mStep_pk_list c5obj defaultOptions c5fld [c5rel]
      rfl rfl rfl rfl rfl rfl []
  · intro h
    injection h with h2
    injection h2 with h3
    cases h3

/-- C5 amended: for every dispatched m2m field with auto-created through
model, not named in relations and with natural keys off, the value stored
under the field name is the ordered list, in iteration order, of each
related object's primary-key value passed through the strings-only
conversion (protected values such as integers stay as is, others become
strings) -- not necessarily a list of strings. -/
theorem c5_amended_m2m_pk_list (o : Obj) (opts : Options) (f : M2MFieldD) (os : List Obj)
    (hwf : o.wfNames)
    (hf : f ∈ o.many_to_many)
    (hser : f.serialize = true)
    (hfil : passFilter opts f.attname = true)
    (hauto : f.throughAutoCreated = true)
    (hexp : Relations.mem opts.relations f.name = false)
    (hnk : opts.use_natural_keys = false)
    (hget : getattr o f.name = some (Attr.manager os)) :
    (recordFields (serializeObj o opts)).lookup f.name =
      some (PyVal.list (os.map (fun r => smart_str r.pk))) := by
  obtain ⟨hinj, hloc, hrf, hrm⟩ := wfNames_m2m_facts hwf hf
  rw [recordFields_serializeObj]
  rw [processRevM2m_stable _ _ (fun a ha x => revM2mStep_lookup_ne (fun he => hrm (by rw [he] at ha; exact ha)) x)]
  rw [processRevFk_stable _ _ (fun a ha x => revFkStep_lookup_ne (fun he => hrf (by rw [he] at ha; exact ha)) x)]
  refine processM2M_write o.many_to_many _ ?_ ?_
  · intro g hg
    by_cases hn : g.name = f.name
    · have hgf : g = f := hinj g hg hn
      subst hgf
      right
      intro x
      exact m2mStep_pk_list hser hfil hauto hget hexp hnk x
    · left
      intro x
      exact m2mStep_lookup_ne hn x
  · exact Or.inl ⟨f, hf, fun x => m2mStep_pk_list hser hfil hauto hget hexp hnk x⟩

/-- C5 witness: the amended claim applied at c5obj. -/
theorem c5_amended_witness :
    (recordFields (serializeObj c5obj defaultOptions)).lookup "tags" =
      some (PyVal.list ([c5rel].map (fun r => smart_str r.pk))) :=
  c5_amended_m2m_pk_list c5obj defaultOptions c5fld [c5rel]
    (by unfold Obj.wfNames; decide) (List.mem_cons_self c5fld [])
    rfl rfl rfl rfl rfl rfl

/-- C10: for every m2m field whose through model is not auto-created,
handle_m2m_field stores nothing: the field name is absent from the
record's fields dict for every options value -- whether or not the name is
in the fields allow-list or the relations expand set -- and serialization
succeeds (the serializer is a total function). -/
theorem c10_m2m_custom_through_absent (o : Obj) (opts : Options) (f : M2MFieldD)
    (hwf : o.wfNames)
    (hf : f ∈ o.many_to_many)
    (hauto : f.throughAutoCreated = false) :
    (recordFields (serializeObj o opts)).lookup f.name = none := by
  obtain ⟨hinj, hloc, hrf, hrm⟩ := wfNames_m2m_facts hwf hf
  rw [recordFields_serializeObj]
  rw [processRevM2m_stable _ _ (fun a ha x => revM2mStep_lookup_ne (fun he => hrm (by rw [he] at ha; exact ha)) x)]
  rw [processRevFk_stable _ _ (fun a ha x => revFkStep_lookup_ne (fun he => hrf (by rw [he] at ha; exact ha)) x)]
  rw [processM2M_stable _ _ ?_]
  · rw [processLocal_stable _ _ (fun g hg x =>
      localStep_lookup_ne (fun he => hloc (by rw [← he]; exact List.mem_map_of_mem FieldD.name hg)) x)]
    rfl
  · intro g hg x
    by_cases hn : g.name = f.name
    · have hgf : g = f := hinj g hg hn
      subst hgf
      rw [m2mStep_custom_through hauto x]
    · exact m2mStep_lookup_ne hn x

/-- C10 witness object: an m2m field over a custom (non-auto) through
model, listed in both fields and relations. -/
def c10fld : M2MFieldD := ⟨"members", "members", true, false, false⟩

def c10obj : Obj := .mk "app.band" (.int 1) "id" none [] [c10fld] [] []
  [("members", .manager [c5rel])]

def c10opts : Options := .mk ["members"] [] (.names ["members"]) [] false

/-- C10 witness: the claim applied at c10obj with "members" in both the
fields allow-list and the relations expand set. -/
theorem c10_witness :
    (recordFields (serializeObj c10obj c10opts)).lookup "members" = none :=
  c10_m2m_custom_through_absent c10obj c10opts c10fld
    (by unfold Obj.wfNames; decide) (List.mem_cons_self c10fld []) rfl

end Wos

namespace Wos

theorem revFkStep_none_stored {o : Obj} {opts : Options} {a : String}
    (hexc : opts.excludes.contains a = false)
    (hget : getattr o a = some (Attr.val PyVal.none_))
    (acc : List (String × PyVal)) :
    (revFkStep o opts a acc).lookup a = some (smart_str PyVal.none_) := by
  rw [revFkStep, hexc]
  simp only [Bool.false_eq_true, if_false]
  rw [handle_related_fk_field]
  split
  · next heq => rw [hget] at heq; simp at heq
  · next heq => rw [hget] at heq; simp at heq
  · next heq => exact lookup_dinsert_self a _ acc
  · next hno1 hno2 hno3 => exact absurd hget hno3

/-- C3: excludes dominance. Under the Django attname conventions, for
every name N in both the fields allow-list and the excludes deny-list, N
is absent from the record's fields dict: direct, foreign-key and m2m
fields are blocked by the filter, reverse accessors by the excludes test,
and extras land in the separate extras dict. -/
theorem c3_excludes_dominance (o : Obj) (opts : Options) (N : String)
    (hdj : o.djangoNames)
    (hfld : opts.fields.contains N = true)
    (hexc : opts.excludes.contains N = true) :
    (recordFields (serializeObj o opts)).lookup N = none := by
  obtain ⟨hdl, hdm⟩ := hdj
  rw [recordFields_serializeObj]
  rw [processRevM2m_stable _ _ ?_]
  · rw [processRevFk_stable _ _ ?_]
    · rw [processM2M_stable _ _ ?_]
      · rw [processLocal_stable _ _ ?_]
        · rfl
        · intro g hg x
          by_cases hn : g.name = N
          · have h1 : g.rel = none → passFilter opts g.attname = false := fun hrel => by
              rw [(hdl g hg).1 hrel, hn]
              exact passFilter_false_of_excluded hexc
            have h2 : g.rel ≠ none → passFilter opts (fkTestName g) = false := fun hrel => by
              rw [fkTestName_eq_name ((hdl g hg).2 hrel), hn]
              exact passFilter_false_of_excluded hexc
            rw [localStep_filtered h1 h2 x]
          · exact localStep_lookup_ne hn x
      · intro g hg x
        by_cases hn : g.name = N
        · have h1 : passFilter opts g.attname = false := by
            rw [hdm g hg, hn]
            exact passFilter_false_of_excluded hexc
          rw [m2mStep_filtered h1 x]
        · exact m2mStep_lookup_ne hn x
    · intro b hb x
      by_cases hn : b = N
      · subst hn; rw [revFkStep_excluded hexc x]
      · exact revFkStep_lookup_ne hn x
  · intro b hb x
    by_cases hn : b = N
    · subst hn; rw [revM2mStep_excluded hexc x]
    · exact revM2mStep_lookup_ne hn x

def c3fld : FieldD := ⟨"x", "x", true, none, .int 3⟩

def c3obj : Obj := .mk "app.c" (.int 1) "id" none [c3fld] [] [] [] []

def c3opts : Options := .mk ["x"] ["x"] (.names []) [] false

/-- C3 witness: the claim applied at c3obj with "x" in both lists. -/
theorem c3_witness : (recordFields (serializeObj c3obj c3opts)).lookup "x" = none :=
  c3_excludes_dominance c3obj c3opts "x" (by unfold Obj.djangoNames; decide) rfl rfl

/-- C1 counterexample object: a reverse fk accessor "child" resolving to
None, with default (empty) options: "child" is neither expanded nor
excluded, yet the record binds it to None. -/
def revNoneObj : Obj :=
  .mk "app.parent" (.int 1) "id" none [] [] ["child"] [] [("child", .val .none_)]

/-- C1: refuted as stated. At revNoneObj the accessor "child" is not in
relations and not excluded, yet its key is present in the fields dict,
bound to None (the null value), coming from the None branch of
handle_related_fk_field. -/
theorem c1_counterexample :
    Relations.mem defaultOptions.relations "child" = false ∧
    defaultOptions.excludes.contains "child" = false ∧
    (recordFields (serializeObj revNoneObj defaultOptions)).lookup "child" =
      some PyVal.none_ := by
  refine ⟨rfl, rfl, ?_⟩
  rw [recordFields_serializeObj]
  rw [show Obj.reverseM2m revNoneObj = [] from rfl,
    show Obj.reverseFk revNoneObj = ["child"] from rfl,
    show Obj.many_to_many revNoneObj = [] from rfl,
    show Obj.local_fields revNoneObj = [] from rfl]
  rw [processRevM2m, processRevFk, processRevFk, processM2M, processLocal]
  exact @revFkStep_none_stored revNoneObj defaultOptions "child"
    rfl rfl []

/-- C1 amended: a reverse m2m accessor not named in relations (and not
excluded) is always absent from the fields dict; a reverse fk accessor not
named in relations (and not excluded) is absent provided its accessed
value is not the null value -- when it is null, the key is bound to null
by handle_related_fk_field. -/
theorem c1_amended_reverse_absent_unless_null (o : Obj) (opts : Options) (a : String)
    (hwf : o.wfNames)
    (hexc : opts.excludes.contains a = false)
    (hexp : Relations.mem opts.relations a = false) :
    (a ∈ o.reverseM2m → (recordFields (serializeObj o opts)).lookup a = none) ∧
    (a ∈ o.reverseFk → getattr o a ≠ some (Attr.val PyVal.none_) →
      (recordFields (serializeObj o opts)).lookup a = none) := by
  constructor
  · intro ha
    obtain ⟨hloc, hm2m, hrf⟩ := wfNames_revM2m_facts hwf ha
    rw [recordFields_serializeObj]
    rw [processRevM2m_stable _ _ ?_]
    · rw [processRevFk_stable _ _ (fun b hb x =>
        revFkStep_lookup_ne (fun he => hrf (by rw [← he]; exact hb)) x)]
      rw [processM2M_stable _ _ (fun g hg x => m2mStep_lookup_ne
        (fun he => hm2m (by rw [← he]; exact List.mem_map_of_mem M2MFieldD.name hg)) x)]
      rw [processLocal_stable _ _ (fun g hg x => localStep_lookup_ne
        (fun he => hloc (by rw [← he]; exact List.mem_map_of_mem FieldD.name hg)) x)]
      rfl
    · intro b hb x
      by_cases hn : b = a
      · subst hn; rw [revM2mStep_skip hexp x]
      · exact revM2mStep_lookup_ne hn x
  · intro ha hnone
    obtain ⟨hloc, hm2m, hrm⟩ := wfNames_revFk_facts hwf ha
    rw [recordFields_serializeObj]
    rw [processRevM2m_stable _ _ (fun b hb x =>
      revM2mStep_lookup_ne (fun he => hrm (by rw [← he]; exact hb)) x)]
    rw [processRevFk_stable _ _ ?_]
    · rw [processM2M_stable _ _ (fun g hg x => m2mStep_lookup_ne
        (fun he => hm2m (by rw [← he]; exact List.mem_map_of_mem M2MFieldD.name hg)) x)]
      rw [processLocal_stable _ _ (fun g hg x => localStep_lookup_ne
        (fun he => hloc (by rw [← he]; exact List.mem_map_of_mem FieldD.name hg)) x)]
      rfl
    · intro b hb x
      by_cases hn : b = a
      · subst hn; rw [revFkStep_skip hexp hnone x]
      · exact revFkStep_lookup_ne hn x

def c1wobj : Obj := .mk "app.p" (.int 1) "id" none [] [] ["kids"] ["tags"]
  [("kids", .manager []), ("tags", .manager [])]

/-- C1 witness: the amended claim applied at c1wobj, for a reverse m2m
accessor "tags" and a reverse fk accessor "kids" resolving to a manager. -/
theorem c1_amended_witness :
    (recordFields (serializeObj c1wobj defaultOptions)).lookup "tags" = none ∧
    (recordFields (serializeObj c1wobj defaultOptions)).lookup "kids" = none :=
  ⟨(c1_amended_reverse_absent_unless_null c1wobj defaultOptions "tags"
      (by unfold Obj.wfNames; decide) rfl rfl).1 (by decide),
   (c1_amended_reverse_absent_unless_null c1wobj defaultOptions "kids"
      (by unfold Obj.wfNames; decide) rfl rfl).2 (by decide)
     (by
       intro h
       rw [show getattr c1wobj "kids" = some (Attr.manager []) from rfl] at h
       injection h with h2
       exact Attr.noConfusion h2)⟩

end Wos

namespace Wos

/-- C6: reverse relations are gated by excludes only. Part one and two: a
reverse fk / reverse m2m accessor that is not excluded is dispatched and
produces output even when the fields allow-list is nonempty and does not
hold the accessor name. Part three: under the Django attname conventions,
any name that is not a reverse accessor and is missing from a nonempty
allow-list is absent from the fields dict -- the allow-list does gate
direct, foreign-key and m2m fields. -/
theorem c6_reverse_gated_by_excludes_only :
    (∀ (o : Obj) (opts : Options) (a : String) (os : List Obj), o.wfNames →
      a ∈ o.reverseFk →
      opts.excludes.contains a = false →
      opts.fields.isEmpty = false → opts.fields.contains a = false →
      Relations.mem opts.relations a = true →
      getattr o a = some (Attr.manager os) →
      (recordFields (serializeObj o opts)).lookup a =
        some (PyVal.list (serialize os (Relations.nestedOpts opts.relations a)))) ∧
    (∀ (o : Obj) (opts : Options) (a : String) (os : List Obj),
      a ∈ o.reverseM2m →
      opts.excludes.contains a = false →
      opts.fields.isEmpty = false → opts.fields.contains a = false →
      Relations.mem opts.relations a = true →
      getattr o a = some (Attr.manager os) →
      (recordFields (serializeObj o opts)).lookup a =
        some (PyVal.list (serialize os (Relations.nestedOpts opts.relations a)))) ∧
    (∀ (o : Obj) (opts : Options) (N : String), o.djangoNames →
      opts.fields.isEmpty = false → opts.fields.contains N = false →
      N ∉ o.reverseFk → N ∉ o.reverseM2m →
      (recordFields (serializeObj o opts)).lookup N = none) := by
  refine ⟨?_, ?_, ?_⟩
  · intro o opts a os hwf ha hexc hne hnf hexp hget
    obtain ⟨hloc, hm2m, hrm⟩ := wfNames_revFk_facts hwf ha
    rw [recordFields_serializeObj]
    rw [processRevM2m_stable _ _ (fun b hb x =>
      revM2mStep_lookup_ne (fun he => hrm (by rw [← he]; exact hb)) x)]
    refine processRevFk_write o.reverseFk _ ?_ ?_
    · intro b hb
      by_cases hn : b = a
      · subst hn
        right
        intro x
        exact revFkStep_manager_expanded hexc hexp hget x
      · left
        intro x
        exact revFkStep_lookup_ne hn x
    · exact Or.inl ⟨a, ha, fun x => revFkStep_manager_expanded hexc hexp hget x⟩
  · intro o opts a os ha hexc hne hnf hexp hget
    rw [recordFields_serializeObj]
    refine processRevM2m_write o.reverseM2m _ ?_ ?_
    · intro b hb
      by_cases hn : b = a
      · subst hn
        right
        intro x
        exact revM2mStep_manager_expanded hexc hexp hget x
      · left
        intro x
        exact revM2mStep_lookup_ne hn x
    · exact Or.inl ⟨a, ha, fun x => revM2mStep_manager_expanded hexc hexp hget x⟩
  · intro o opts N hdj hne hnf hrf hrm
    obtain ⟨hdl, hdm⟩ := hdj
    rw [recordFields_serializeObj]
    rw [processRevM2m_stable _ _ (fun b hb x =>
      revM2mStep_lookup_ne (fun he => hrm (by rw [← he]; exact hb)) x)]
    rw [processRevFk_stable _ _ (fun b hb x =>
      revFkStep_lookup_ne (fun he => hrf (by rw [← he]; exact hb)) x)]
    rw [processM2M_stable _ _ ?_]
    · rw [processLocal_stable _ _ ?_]
      · rfl
      · intro g hg x
        by_cases hn : g.name = N
        · have h1 : g.rel = none → passFilter opts g.attname = false := fun hrel => by
            rw [(hdl g hg).1 hrel, hn]
            exact passFilter_false_of_not_in_fields hne hnf
          have h2 : g.rel ≠ none → passFilter opts (fkTestName g) = false := fun hrel => by
            rw [fkTestName_eq_name ((hdl g hg).2 hrel), hn]
            exact passFilter_false_of_not_in_fields hne hnf
          rw [localStep_filtered h1 h2 x]
        · exact localStep_lookup_ne hn x
    · intro g hg x
      by_cases hn : g.name = N
      · have h1 : passFilter opts g.attname = false := by
          rw [hdm g hg, hn]
          exact passFilter_false_of_not_in_fields hne hnf
        rw [m2mStep_filtered h1 x]
      · exact m2mStep_lookup_ne hn x

def c6aobj : Obj := .mk "app.p" (.int 1) "id" none [] [] ["kids"] []
  [("kids", .manager [])]

def c6bobj : Obj := .mk "app.p" (.int 2) "id" none [] [] [] ["tags"]
  [("tags", .manager [])]

def c6opts : Options := .mk ["other"] [] (.names ["kids", "tags"]) [] false

/-- C6 witness: the three parts applied concretely -- the reverse fk
accessor "kids" and the reverse m2m accessor "tags" produce output despite
a nonempty allow-list ["other"] not holding them, while the non-reverse
name "other2" is absent. -/
theorem c6_witness :
    (recordFields (serializeObj c6aobj c6opts)).lookup "kids" =
      some (PyVal.list (serialize [] (Relations.nestedOpts c6opts.relations "kids"))) ∧
    (recordFields (serializeObj c6bobj c6opts)).lookup "tags" =
      some (PyVal.list (serialize [] (Relations.nestedOpts c6opts.relations "tags"))) ∧
    (recordFields (serializeObj c6aobj c6opts)).lookup "other2" = none :=
  ⟨c6_reverse_gated_by_excludes_only.1 c6aobj c6opts "kids" []
     (by unfold Obj.wfNames; decide) (by decide) rfl rfl rfl rfl rfl,
   c6_reverse_gated_by_excludes_only.2.1 c6bobj c6opts "tags" []
     (by decide) rfl rfl rfl rfl rfl,
   c6_reverse_gated_by_excludes_only.2.2 c6aobj c6opts "other2"
     (by unfold Obj.djangoNames; decide) rfl rfl (by decide) (by decide)⟩

/-- C7: the fields/excludes filter for a ForeignKey field is performed on
the field's logical name: for every field following the Django convention
attname = name ++ "_id", the tested name (attname with its three-character
suffix stripped) equals the logical name, so the filter result agrees with
filtering on the logical name. -/
theorem c7_fk_filter_tests_logical_name (f : FieldD)
    (hconv : f.attname = f.name ++ "_id") :
    fkTestName f = f.name ∧
    ∀ opts : Options, passFilter opts (fkTestName f) = passFilter opts f.name := by
  have h := fkTestName_eq_name hconv
  exact ⟨h, fun opts => by rw [h]⟩

/-- C7 witness: the claim applied at the ForeignKey field descriptor
c4fld (name "b", attname "b_id"). -/
theorem c7_witness :
    fkTestName c4fld = c4fld.name ∧
    ∀ opts : Options, passFilter opts (fkTestName c4fld) = passFilter opts c4fld.name :=
  c7_fk_filter_tests_logical_name c4fld (by decide)

/-- C8 counterexample object: a zero-argument callable extra "age"
returning the integer 5. -/
def c8obj : Obj := .mk "app.a" (.int 1) "id" none [] [] [] [] [("age", .callable (.int 5))]

def c8opts : Options := .mk [] [] (.names []) ["age"] false

/-- C8: refuted as stated. At c8obj the extras dict binds "age" to the
integer 5 returned by the callable -- kept as is by the strings-only
conversion -- not to its string form "5". -/
theorem c8_counterexample :
    (recordExtras (serializeObj c8obj c8opts)).lookup "age" = some (PyVal.int 5) ∧
    PyVal.int 5 ≠ PyVal.str (pyStr (PyVal.int 5)) := by
  constructor
  · rw [recordExtras_serializeObj]
    rw [show Options.extras c8opts = ["age"] from rfl]
    rw [processExtras, processExtras]
    exact @handle_extra_callable c8obj "age" (PyVal.int 5) rfl []
  · intro h
    cases h

/-- C8 amended: for every name in extras, a zero-argument callable
attribute stores the strings-only conversion of its returned value (a
protected value such as an integer stays as is), a plain attribute stores
the strings-only conversion of the attribute value, and a missing
attribute adds no key and raises no error (the serializer is total). -/
theorem c8_amended_extras_strings_only (o : Obj) (opts : Options) (n : String) :
    (∀ ret : PyVal, n ∈ opts.extras → getattr o n = some (Attr.callable ret) →
      (recordExtras (serializeObj o opts)).lookup n = some (smart_str ret)) ∧
    (∀ v : PyVal, n ∈ opts.extras → getattr o n = some (Attr.val v) →
      (recordExtras (serializeObj o opts)).lookup n = some (smart_str v)) ∧
    (getattr o n = none → (recordExtras (serializeObj o opts)).lookup n = none) := by
  refine ⟨?_, ?_, ?_⟩
  · intro ret hmem hget
    rw [recordExtras_serializeObj]
    refine processExtras_write opts.extras [] ?_ ?_
    · intro e he
      by_cases hn : e = n
      · subst hn
        right
        intro x
        exact handle_extra_callable hget x
      · left
        intro x
        exact handle_extra_lookup_ne hn x
    · exact Or.inl ⟨n, hmem, fun x => handle_extra_callable hget x⟩
  · intro v hmem hget
    rw [recordExtras_serializeObj]
    refine processExtras_write opts.extras [] ?_ ?_
    · intro e he
      by_cases hn : e = n
      · subst hn
        right
        intro x
        exact handle_extra_val hget x
      · left
        intro x
        exact handle_extra_lookup_ne hn x
    · exact Or.inl ⟨n, hmem, fun x => handle_extra_val hget x⟩
  · intro hget
    rw [recordExtras_serializeObj]
    rw [processExtras_stable _ _ ?_]
    · rfl
    · intro e he x
      by_cases hn : e = n
      · subst hn
        rw [handle_extra_missing hget x]
      · exact handle_extra_lookup_ne hn x

def c8vobj : Obj := .mk "app.a" (.int 2) "id" none [] [] [] [] [("nick", .val (.str "zed"))]

def c8vopts : Options := .mk [] [] (.names []) ["nick"] false

def c8mobj : Obj := .mk "app.a" (.int 3) "id" none [] [] [] [] []

def c8mopts : Options := .mk [] [] (.names []) ["ghost"] false

/-- C8 witness: the amended claim applied at a callable extra, a plain
attribute extra, and a missing extra. -/
theorem c8_amended_witness :
    (recordExtras (serializeObj c8obj c8opts)).lookup "age" =
      some (smart_str (PyVal.int 5)) ∧
    (recordExtras (serializeObj c8vobj c8vopts)).lookup "nick" =
      some (smart_str (PyVal.str "zed")) ∧
    (recordExtras (serializeObj c8mobj c8mopts)).lookup "ghost" = none :=
  ⟨(c8_amended_extras_strings_only c8obj c8opts "age").1 (PyVal.int 5) (by decide) rfl,
   (c8_amended_extras_strings_only c8vobj c8vopts "nick").2.1 (PyVal.str "zed") (by decide) rfl,
   (c8_amended_extras_strings_only c8mobj c8mopts "ghost").2.2 rfl⟩

end Wos

namespace Wos

def c2rel : Obj := .mk "app.b" (.int 9) "id" none [] [] [] [] []

def c2obj : Obj := .mk "app.a" (.int 1) "id" none [c4fld] [] [] [] [("b", .obj c2rel)]

def c2opts : Options := .mk [] [] (.names ["b"]) [] false

/-- C2 witness: the claim applied at c2obj whose ForeignKey "b" is in the
relations expand set. -/
theorem c2_witness :
    (recordFields (serializeObj c2obj c2opts)).lookup "b" =
      some ((serialize [c2rel] (Relations.nestedOpts c2opts.relations "b")).headD PyVal.none_) :=
  c2_fk_expanded_nested c2obj c2opts c4fld c2rel
    (by unfold Obj.wfNames; decide) (List.mem_cons_self c4fld [])
    rfl (by decide) (by decide) rfl rfl

end Wos
